import Mathlib

/-!
Verification of the TesseraTUI native formula engine (src/native/src/lib.rs).

The development shallowly embeds the two components of the library:

* the formula parser `tessera_parse_formula`, which splits a string of the
  shape `=FUNC(ARG)` into an uppercased function name and a trimmed argument;
* the tolerant aggregation engine `tessera_sum` / `tessera_avg` /
  `tessera_min` / `tessera_max` / `tessera_count`, which coerce optional raw
  text cell values to numbers and reduce them.

Strings decoded from C strings are modelled as `List Char` (a decoded
`&str`; by the FFI contract such a string never contains an interior NUL
character, so the `CString::new` failure branch of the source is
unreachable and is not modelled).  Byte-index slicing performed by the Rust
code is modelled at character level; the byte-level in-bounds and
character-boundary facts are stated separately through `byteLen`.

Floating-point values are modelled abstractly: the engine is parameterised
by a `FloatModel` carrying the numeric operations, so theorems about the
*structure* of the computation (which entries are skipped, the reduction
order, the denominators) hold for any numeric interpretation, in particular
for IEEE-754 doubles.  A concrete executable instance `FValModel` over an
idealised value type `FVal` (exact rationals plus infinities and NaN) is
used to evaluate the engine on concrete inputs; its parse acceptance is
exactly the documented grammar of Rust's `str::parse::<f64>`.
-/

namespace Tessera

/-- Rust `char::is_whitespace`: the Unicode White_Space property
(U+0009–U+000D, U+0020, U+0085, U+00A0, U+1680, U+2000–U+200A, U+2028,
U+2029, U+202F, U+205F, U+3000). -/
def isRustWhitespace (c : Char) : Bool :=
  (9 ≤ c.toNat && c.toNat ≤ 13) || c.toNat = 32 || c.toNat = 133 || c.toNat = 160 ||
  c.toNat = 5760 || (8192 ≤ c.toNat && c.toNat ≤ 8202) || c.toNat = 8232 ||
  c.toNat = 8233 || c.toNat = 8239 || c.toNat = 8287 || c.toNat = 12288

/-- Remove trailing Rust whitespace (the trailing half of `str::trim`). -/
def dropTrailing (l : List Char) : List Char :=
  (l.reverse.dropWhile isRustWhitespace).reverse

/-- Rust `str::trim`: remove leading and trailing Unicode whitespace. -/
def trimChars (l : List Char) : List Char :=
  dropTrailing (l.dropWhile isRustWhitespace)

/-- Rust `str::to_uppercase` restricted to the inputs exercised here: the
character-wise ASCII uppercase map (on ASCII text it agrees with the full
Unicode uppercasing performed by the source). -/
def toUpperChars (l : List Char) : List Char := l.map Char.toUpper

/-- Character-wise ASCII lowercase map (for the case-insensitive special
float spellings of `str::parse::<f64>`). -/
def toLowerChars (l : List Char) : List Char := l.map Char.toLower

/-- Rust `str::find('(')`: index of the first occurrence of the opening
parenthesis.  The source receives a byte index; since `'('` is a one-byte
character, the character index used here identifies the same split point
(see `byteLen` for the byte-level accounting). -/
def findOpenIdx : List Char → Option Nat
  | [] => none
  | c :: rest => if c = '(' then some 0 else (findOpenIdx rest).map (fun i => i + 1)

/-- Number of bytes of the UTF-8 encoding of a character
(Rust `char::len_utf8`). -/
def charUtf8Size (c : Char) : Nat :=
  if c.toNat < 128 then 1 else if c.toNat < 2048 then 2 else
  if c.toNat < 65536 then 3 else 4

/-- Byte length of the UTF-8 encoding of a string (`str::len`).  The byte
position of the boundary in front of character index `i` of `l` is
`byteLen (l.take i)`. -/
def byteLen (l : List Char) : Nat := (l.map charUtf8Size).sum

/-- A decoded C string argument: either text that failed UTF-8 validation
(`CStr::to_str` returned `Err`) or the decoded characters. -/
inductive TextInput where
  | invalid
  | valid (s : List Char)
deriving DecidableEq, Repr

/-- One entry of the values array: `none` models a null pointer in the
array; `some t` models a present C string that decoded to `t`. -/
abbrev CellInput := Option TextInput

/-- The distinct error kinds surfaced by `tessera_parse_formula`
(each is a distinct human-readable message in the source). -/
inductive ParseError where
  | nullFormula
  | invalidEncoding
  | missingLeadingEquals
  | missingOpenParen
  | missingCloseParen
deriving DecidableEq, Repr

/-- The parsed record: in the source it is serialised as the string
`"FUNC:arg"`; the two fields are modelled directly. -/
structure ParsedFormula where
  functionName : List Char
  argument : List Char
deriving DecidableEq, Repr

/-- The success continuation of the parser once the index `funcEnd` of the
first `'('` is known: mirrors the body of the `if let Some(func_end)` arm of
`tessera_parse_formula` (lines 343–364 of lib.rs).  The argument slice
`formula_body[args_start..formula_body.len() - 1]` becomes
`(body.drop (funcEnd+1)).take (body.length - 1 - (funcEnd+1))`. -/
def parseWithIdx (body : List Char) (funcEnd : Nat) : Except ParseError ParsedFormula :=
  if body.getLast? = some ')' then
    Except.ok
      { functionName := toUpperChars (trimChars (body.take funcEnd)),
        argument := trimChars ((body.drop (funcEnd + 1)).take (body.length - 1 - (funcEnd + 1))) }
  else Except.error ParseError.missingCloseParen

/-- Dispatch on `formula_body.find('(')`. -/
def parseBody (body : List Char) : Except ParseError ParsedFormula :=
  match findOpenIdx body with
  | some funcEnd => parseWithIdx body funcEnd
  | none => Except.error ParseError.missingOpenParen

/-- The string-level parser (lines 327–368 of lib.rs): trim, check the
leading `'='`, take the substring after it, trim again, and split at the
first `'('` / final `')'`. -/
def parseFormulaStr (input : List Char) : Except ParseError ParsedFormula :=
  if (trimChars input).head? = some '=' then
    parseBody (trimChars (trimChars input).tail)
  else Except.error ParseError.missingLeadingEquals

/-- `tessera_parse_formula` including the FFI-input checks: a null pointer
and a UTF-8 decoding failure each produce their own error string before any
syntax validation. -/
def tessera_parse_formula (formula : Option TextInput) : Except ParseError ParsedFormula :=
  match formula with
  | none => Except.error ParseError.nullFormula
  | some TextInput.invalid => Except.error ParseError.invalidEncoding
  | some (TextInput.valid s) => parseFormulaStr s

/-- Strip one optional leading sign (the `Sign?` of the `f64` grammar). -/
def stripSign : List Char → List Char
  | '+' :: t => t
  | '-' :: t => t
  | t => t

/-- Whether the string carries a leading minus sign. -/
def isNegSigned : List Char → Bool
  | '-' :: _ => true
  | _ => false

/-- Decimal digit sequence to a natural number. -/
def digitsToNat (l : List Char) : Nat := l.foldl (fun a c => a * 10 + (c.toNat - 48)) 0

/-- The optional-exponent suffix of the `f64` grammar:
`Exp? ::= (('e' | 'E') Sign? Digit+)?`, returning the signed exponent. -/
def expVal : List Char → Option Int
  | [] => some 0
  | c :: rest =>
    if c = 'e' || c = 'E' then
      match rest with
      | '+' :: t => if !t.isEmpty && t.all Char.isDigit then some (Int.ofNat (digitsToNat t)) else none
      | '-' :: t => if !t.isEmpty && t.all Char.isDigit then some (-(Int.ofNat (digitsToNat t))) else none
      | t => if !t.isEmpty && t.all Char.isDigit then some (Int.ofNat (digitsToNat t)) else none
    else none

/-- An exact rational (numerator and positive denominator), kept in lowest
terms by the smart constructor `normQ`.  It plays the role of the finite
f64 values in the concrete model; all operations are plain `Int`/`Nat`
arithmetic so that concrete instances evaluate inside the kernel. -/
structure Q where
  n : Int
  d : Nat
deriving DecidableEq, Repr

/-- Normalising constructor: divide out the gcd (a zero denominator, which
no reachable construction produces, is mapped to the canonical zero). -/
def normQ (n : Int) (d : Nat) : Q :=
  if d = 0 then ⟨0, 1⟩
  else ⟨n / Int.ofNat (Nat.gcd n.natAbs d), d / Nat.gcd n.natAbs d⟩

def Q.add (a b : Q) : Q :=
  normQ (a.n * Int.ofNat b.d + b.n * Int.ofNat a.d) (a.d * b.d)

def Q.neg (a : Q) : Q := ⟨-a.n, a.d⟩

def Q.mul (a b : Q) : Q := normQ (a.n * b.n) (a.d * b.d)

def Q.inv (a : Q) : Q :=
  if a.n = 0 then ⟨0, 1⟩
  else if 0 ≤ a.n then ⟨Int.ofNat a.d, a.n.natAbs⟩
  else ⟨-(Int.ofNat a.d), a.n.natAbs⟩

def Q.div (a b : Q) : Q := Q.mul a (Q.inv b)

/-- Rational order test, used for the running minimum/maximum. -/
def Q.le (a b : Q) : Bool := a.n * Int.ofNat b.d ≤ b.n * Int.ofNat a.d

/-- Exact value of an unsigned decimal mantissa `intPart.fracPart`. -/
def mantissaVal (intPart fracPart : List Char) : Q :=
  normQ (Int.ofNat (digitsToNat intPart * 10 ^ fracPart.length + digitsToNat fracPart))
    (10 ^ fracPart.length)

/-- Scale a rational by a signed power of ten. -/
def applyExp (q : Q) (e : Int) : Q :=
  if 0 ≤ e then Q.mul q ⟨Int.ofNat (10 ^ e.toNat), 1⟩
  else Q.div q ⟨Int.ofNat (10 ^ (-e).toNat), 1⟩

/-- The `Number` production of the documented grammar of Rust's
`impl FromStr for f64`:
`Number ::= Digit+ '.'? Digit* Exp? | '.' Digit+ Exp?`, evaluated exactly
(no rounding: an idealisation of the f64 result, with the accepted language
matching the source exactly). -/
def parseNumberVal (b : List Char) : Option Q :=
  if (b.takeWhile Char.isDigit).isEmpty then
    match b with
    | '.' :: r2 =>
      if (r2.takeWhile Char.isDigit).isEmpty then none
      else
        match expVal (r2.dropWhile Char.isDigit) with
        | some e => some (applyExp (mantissaVal [] (r2.takeWhile Char.isDigit)) e)
        | none => none
    | _ => none
  else
    match b.dropWhile Char.isDigit with
    | '.' :: r2 =>
      match expVal (r2.dropWhile Char.isDigit) with
      | some e =>
        some (applyExp (mantissaVal (b.takeWhile Char.isDigit) (r2.takeWhile Char.isDigit)) e)
      | none => none
    | r1 =>
      match expVal r1 with
      | some e => some (applyExp (mantissaVal (b.takeWhile Char.isDigit) []) e)
      | none => none

def infChars : List Char := ['i', 'n', 'f']

def infinityChars : List Char := ['i', 'n', 'f', 'i', 'n', 'i', 't', 'y']

def nanChars : List Char := ['n', 'a', 'n']

/-- The special spellings accepted by `str::parse::<f64>` beyond the
decimal grammar: `inf`, `infinity`, `nan`, case-insensitive, with an
optional leading sign. -/
def isSpecialFloat (s : List Char) : Bool :=
  (toLowerChars (stripSign s) == infChars || toLowerChars (stripSign s) == infinityChars) ||
    toLowerChars (stripSign s) == nanChars

/-- The decimal fragment of the textual float grammar, as described by the
specification: optional sign, integer and/or fractional part, optional
exponent (and nothing else: no special spellings). -/
def specDecimalAccepts (s : List Char) : Bool :=
  (parseNumberVal (stripSign s)).isSome

/-- Idealised f64 value: an exact rational, a signed infinity, or NaN.
Only finite values produced from exactly-representable inputs are compared
in concrete evaluations, where the idealisation agrees with IEEE-754. -/
inductive FVal where
  | num (q : Q)
  | posInf
  | negInf
  | nan
deriving DecidableEq, Repr

/-- IEEE-754-style addition on the idealised values (exact on finite
rationals). -/
def FVal.add : FVal → FVal → FVal
  | FVal.num a, FVal.num b => FVal.num (Q.add a b)
  | FVal.nan, _ => FVal.nan
  | _, FVal.nan => FVal.nan
  | FVal.posInf, FVal.negInf => FVal.nan
  | FVal.negInf, FVal.posInf => FVal.nan
  | FVal.posInf, _ => FVal.posInf
  | _, FVal.posInf => FVal.posInf
  | FVal.negInf, _ => FVal.negInf
  | _, FVal.negInf => FVal.negInf

/-- IEEE-754-style division on the idealised values. -/
def FVal.div : FVal → FVal → FVal
  | FVal.num a, FVal.num b =>
    if b.n = 0 then (if a.n = 0 then FVal.nan else if 0 ≤ a.n then FVal.posInf else FVal.negInf)
    else FVal.num (Q.div a b)
  | FVal.nan, _ => FVal.nan
  | _, FVal.nan => FVal.nan
  | FVal.posInf, FVal.num b => if 0 ≤ b.n then FVal.posInf else FVal.negInf
  | FVal.negInf, FVal.num b => if 0 ≤ b.n then FVal.negInf else FVal.posInf
  | FVal.num _, FVal.posInf => FVal.num ⟨0, 1⟩
  | FVal.num _, FVal.negInf => FVal.num ⟨0, 1⟩
  | FVal.posInf, _ => FVal.nan
  | FVal.negInf, _ => FVal.nan

/-- Rust `f64::min`: if one argument is NaN, the other is returned. -/
def FVal.fmin : FVal → FVal → FVal
  | FVal.nan, b => b
  | a, FVal.nan => a
  | FVal.num a, FVal.num b => if Q.le a b then FVal.num a else FVal.num b
  | FVal.negInf, _ => FVal.negInf
  | _, FVal.negInf => FVal.negInf
  | FVal.posInf, b => b
  | a, FVal.posInf => a

/-- Rust `f64::max`: if one argument is NaN, the other is returned. -/
def FVal.fmax : FVal → FVal → FVal
  | FVal.nan, b => b
  | a, FVal.nan => a
  | FVal.num a, FVal.num b => if Q.le a b then FVal.num b else FVal.num a
  | FVal.posInf, _ => FVal.posInf
  | _, FVal.posInf => FVal.posInf
  | FVal.negInf, b => b
  | a, FVal.negInf => a

/-- Full model of `str::parse::<f64>` acceptance (documented grammar:
`Sign? ( 'inf' | 'infinity' | 'nan' | Number )`, the specials
case-insensitive), with idealised values. -/
def parseF64Val (s : List Char) : Option FVal :=
  if toLowerChars (stripSign s) == infChars || toLowerChars (stripSign s) == infinityChars then
    some (if isNegSigned s then FVal.negInf else FVal.posInf)
  else if toLowerChars (stripSign s) == nanChars then
    some FVal.nan
  else
    match parseNumberVal (stripSign s) with
    | some q => some (FVal.num (if isNegSigned s then Q.neg q else q))
    | none => none

/-- The numeric operations the aggregation engine needs.  The engine is
stated over an arbitrary model so that its structural properties hold for
any interpretation of the 64-bit floats, in particular IEEE-754. -/
structure FloatModel (F : Type) where
  zero : F
  add : F → F → F
  div : F → F → F
  fmin : F → F → F
  fmax : F → F → F
  ofNat : Nat → F
  parse : List Char → Option F

/-- The concrete executable model over `FVal`. -/
def FValModel : FloatModel FVal where
  zero := FVal.num ⟨0, 1⟩
  add := FVal.add
  div := FVal.div
  fmin := FVal.fmin
  fmax := FVal.fmax
  ofNat := fun n => FVal.num ⟨Int.ofNat n, 1⟩
  parse := parseF64Val

/-- The shared per-entry coercion of the engine loops (lines 76–99 of
lib.rs, repeated in each aggregate): skip a null pointer, skip an entry
with invalid encoding, trim, skip if empty, then attempt the float parse. -/
def coerceEntry {F : Type} (parse : List Char → Option F) (entry : CellInput) : Option F :=
  match entry with
  | none => none
  | some TextInput.invalid => none
  | some (TextInput.valid s) =>
    if (trimChars s).isEmpty then none else parse (trimChars s)

/-- One iteration of the SUM/AVG loop: accumulate the running total and the
count of successfully parsed values. -/
def sumStep {F : Type} (M : FloatModel F) (acc : F × Nat) (entry : CellInput) : F × Nat :=
  match coerceEntry M.parse entry with
  | none => acc
  | some num => (M.add acc.1 num, acc.2 + 1)

/-- One iteration of the MIN loop (running minimum as an `Option`). -/
def minStep {F : Type} (M : FloatModel F) (acc : Option F) (entry : CellInput) : Option F :=
  match coerceEntry M.parse entry with
  | none => acc
  | some num =>
    some (match acc with
          | some currentMin => M.fmin currentMin num
          | none => num)

/-- One iteration of the MAX loop (running maximum as an `Option`). -/
def maxStep {F : Type} (M : FloatModel F) (acc : Option F) (entry : CellInput) : Option F :=
  match coerceEntry M.parse entry with
  | none => acc
  | some num =>
    some (match acc with
          | some currentMax => M.fmax currentMax num
          | none => num)

/-- One iteration of the COUNT loop: count non-null, validly-encoded,
non-blank entries (no numeric filter). -/
def countStep (acc : Nat) (entry : CellInput) : Nat :=
  match entry with
  | some (TextInput.valid s) => if (trimChars s).isEmpty then acc else acc + 1
  | _ => acc

/-- The distinct error kinds surfaced by the aggregate calls. -/
inductive AggError where
  | nullPointer
  | invalidColumnName
  | noNumericValues
deriving DecidableEq, Repr

/-- `tessera_sum` (lines 52–108 of lib.rs): null-pointer check, column-name
decoding, the tolerant summation loop, and the empty-filter failure. -/
def tessera_sum {F : Type} (M : FloatModel F) (columnName : Option TextInput)
    (values : Option (List CellInput)) : Except AggError F :=
  match columnName, values with
  | none, _ => Except.error AggError.nullPointer
  | _, none => Except.error AggError.nullPointer
  | some TextInput.invalid, some _ => Except.error AggError.invalidColumnName
  | some (TextInput.valid _), some vals =>
    if (List.foldl (sumStep M) (M.zero, 0) vals).2 = 0 then
      Except.error AggError.noNumericValues
    else Except.ok (List.foldl (sumStep M) (M.zero, 0) vals).1

/-- `tessera_avg` (lines 112–162): as SUM, then divide by the count of
parsed values. -/
def tessera_avg {F : Type} (M : FloatModel F) (columnName : Option TextInput)
    (values : Option (List CellInput)) : Except AggError F :=
  match columnName, values with
  | none, _ => Except.error AggError.nullPointer
  | _, none => Except.error AggError.nullPointer
  | some TextInput.invalid, some _ => Except.error AggError.invalidColumnName
  | some (TextInput.valid _), some vals =>
    if (List.foldl (sumStep M) (M.zero, 0) vals).2 = 0 then
      Except.error AggError.noNumericValues
    else
      Except.ok (M.div (List.foldl (sumStep M) (M.zero, 0) vals).1
        (M.ofNat (List.foldl (sumStep M) (M.zero, 0) vals).2))

/-- `tessera_min` (lines 166–216). -/
def tessera_min {F : Type} (M : FloatModel F) (columnName : Option TextInput)
    (values : Option (List CellInput)) : Except AggError F :=
  match columnName, values with
  | none, _ => Except.error AggError.nullPointer
  | _, none => Except.error AggError.nullPointer
  | some TextInput.invalid, some _ => Except.error AggError.invalidColumnName
  | some (TextInput.valid _), some vals =>
    match List.foldl (minStep M) none vals with
    | some m => Except.ok m
    | none => Except.error AggError.noNumericValues

/-- `tessera_max` (lines 220–270). -/
def tessera_max {F : Type} (M : FloatModel F) (columnName : Option TextInput)
    (values : Option (List CellInput)) : Except AggError F :=
  match columnName, values with
  | none, _ => Except.error AggError.nullPointer
  | _, none => Except.error AggError.nullPointer
  | some TextInput.invalid, some _ => Except.error AggError.invalidColumnName
  | some (TextInput.valid _), some vals =>
    match List.foldl (maxStep M) none vals with
    | some m => Except.ok m
    | none => Except.error AggError.noNumericValues

/-- `tessera_count` (lines 274–311): counts contentful entries and never
fails past the input checks. -/
def tessera_count {F : Type} (M : FloatModel F) (columnName : Option TextInput)
    (values : Option (List CellInput)) : Except AggError F :=
  match columnName, values with
  | none, _ => Except.error AggError.nullPointer
  | _, none => Except.error AggError.nullPointer
  | some TextInput.invalid, some _ => Except.error AggError.invalidColumnName
  | some (TextInput.valid _), some vals =>
    Except.ok (M.ofNat (List.foldl countStep 0 vals))

/-- The sequence of successfully coerced values, in input order. -/
def parsedValues {F : Type} (M : FloatModel F) (vals : List CellInput) : List F :=
  vals.filterMap (coerceEntry M.parse)

/-- Whether an entry is counted by COUNT: present, validly encoded, and
non-blank after trimming. -/
def isContentful : CellInput → Bool
  | some (TextInput.valid s) => !(trimChars s).isEmpty
  | _ => false

/-! ### Helper lemmas about trimming and searching -/

theorem dropWhile_append_cons {p : Char → Bool} {c : Char} (h : p c = false)
    (l₁ l₂ : List Char) :
    List.dropWhile p (l₁ ++ c :: l₂) = List.dropWhile p l₁ ++ c :: l₂ := by
  induction l₁ with
  | nil => simp [List.dropWhile_cons, h]
  | cons a t ih =>
    by_cases ha : p a
    · simpa [List.dropWhile_cons, ha] using ih
    · simp [List.dropWhile_cons, ha]

theorem dropWhile_self_idem (p : Char → Bool) (l : List Char) :
    List.dropWhile p (List.dropWhile p l) = List.dropWhile p l := by
  induction l with
  | nil => rfl
  | cons a t ih =>
    by_cases ha : p a
    · simpa [List.dropWhile_cons, ha] using ih
    · simp [List.dropWhile_cons, ha]

theorem dropTrailing_concat {c : Char} (h : isRustWhitespace c = false) (l : List Char) :
    dropTrailing (l ++ [c]) = l ++ [c] := by
  unfold dropTrailing
  rw [List.reverse_append]
  simp only [List.reverse_cons, List.reverse_nil, List.nil_append, List.singleton_append]
  rw [List.dropWhile_cons_of_neg (by simp [h])]
  simp

theorem dropTrailing_cons {a : Char} (h : isRustWhitespace a = false) (l : List Char) :
    dropTrailing (a :: l) = a :: dropTrailing l := by
  unfold dropTrailing
  rw [List.reverse_cons, dropWhile_append_cons h, List.reverse_append]
  simp

theorem trimChars_cons {a : Char} (h : isRustWhitespace a = false) (l : List Char) :
    trimChars (a :: l) = a :: dropTrailing l := by
  unfold trimChars
  rw [List.dropWhile_cons_of_neg (by simp [h]), dropTrailing_cons h]

theorem trimChars_dropWhile (l : List Char) :
    trimChars (List.dropWhile isRustWhitespace l) = trimChars l := by
  unfold trimChars
  rw [dropWhile_self_idem]

theorem findOpenIdx_append_open {pre : List Char} (h : '(' ∉ pre) (post : List Char) :
    findOpenIdx (pre ++ '(' :: post) = some pre.length := by
  induction pre with
  | nil => simp [findOpenIdx]
  | cons a t ih =>
    have ha : ¬ a = '(' := fun e => h (by simp [e])
    have ht : '(' ∉ t := fun e => h (by simp [e])
    simp [findOpenIdx, ha, ih ht]

theorem findOpenIdx_of_not_mem {l : List Char} (h : '(' ∉ l) :
    findOpenIdx l = none := by
  induction l with
  | nil => rfl
  | cons a t ih =>
    have ha : ¬ a = '(' := fun e => h (by simp [e])
    have ht : '(' ∉ t := fun e => h (by simp [e])
    simp [findOpenIdx, ha, ih ht]

theorem findOpenIdx_of_mem {l : List Char} (h : '(' ∈ l) :
    ∃ k, findOpenIdx l = some k := by
  induction l with
  | nil => simp at h
  | cons a t ih =>
    by_cases ha : a = '('
    · exact ⟨0, by simp [findOpenIdx, ha]⟩
    · have ht : '(' ∈ t := by
        rcases List.mem_cons.mp h with h1 | h1
        · exact absurd h1.symm ha
        · exact h1
      obtain ⟨k, hk⟩ := ih ht
      exact ⟨k + 1, by simp [findOpenIdx, ha, hk]⟩

theorem findOpenIdx_some_lt {l : List Char} {k : Nat} (h : findOpenIdx l = some k) :
    k < l.length := by
  induction l generalizing k with
  | nil => simp [findOpenIdx] at h
  | cons a t ih =>
    rw [findOpenIdx] at h
    by_cases ha : a = '('
    · rw [if_pos ha] at h
      cases h
      simp
    · rw [if_neg ha] at h
      obtain ⟨j, hj, hjk⟩ := Option.map_eq_some'.mp h
      have := ih hj
      simp only [List.length_cons]
      omega

theorem findOpenIdx_some_get {l : List Char} {k : Nat} (h : findOpenIdx l = some k) :
    l[k]? = some '(' := by
  induction l generalizing k with
  | nil => simp [findOpenIdx] at h
  | cons a t ih =>
    rw [findOpenIdx] at h
    by_cases ha : a = '('
    · rw [if_pos ha] at h
      cases h
      simp [ha]
    · rw [if_neg ha] at h
      obtain ⟨j, hj, hjk⟩ := Option.map_eq_some'.mp h
      subst hjk
      simpa using ih hj

theorem getLast?_shape {l : List Char} {c : Char} (h : l.getLast? = some c) :
    ∃ t, l = t ++ [c] := by
  induction l with
  | nil => simp at h
  | cons a t ih =>
    cases t with
    | nil =>
      simp [List.getLast?] at h
      exact ⟨[], by simp [h]⟩
    | cons b t' =>
      rw [List.getLast?_cons_cons] at h
      obtain ⟨u, hu⟩ := ih h
      exact ⟨a :: u, by simp [hu]⟩

theorem parseBody_of_found {body : List Char} {k : Nat} (h : findOpenIdx body = some k) :
    parseBody body = parseWithIdx body k := by
  unfold parseBody
  rw [h]

theorem parseBody_of_none {body : List Char} (h : findOpenIdx body = none) :
    parseBody body = Except.error ParseError.missingOpenParen := by
  unfold parseBody
  rw [h]

/-- Core characterisation of the parser on a well-shaped input
`'=' F '(' A ')'` with no `'('` inside `F`: the whole string trims to
itself modulo the whitespace inside `F` and `A`, the first `'('` sits right
after `F`, the final character is the `')'`, and the two slices are exactly
`F` and `A`. -/
theorem parse_shape (F A : List Char) (hF : '(' ∉ F) :
    parseFormulaStr ('=' :: (F ++ '(' :: (A ++ [')']))) =
      Except.ok { functionName := toUpperChars (trimChars F), argument := trimChars A } := by
  have hshape : F ++ '(' :: (A ++ [')']) = (F ++ '(' :: A) ++ [')'] := by simp
  have h1 : trimChars ('=' :: (F ++ '(' :: (A ++ [')']))) =
      '=' :: (F ++ '(' :: (A ++ [')'])) := by
    rw [trimChars_cons (by decide), hshape, dropTrailing_concat (by decide)]
  have hF' : '(' ∉ List.dropWhile isRustWhitespace F := by
    intro hmem
    exact hF ((List.dropWhile_sublist isRustWhitespace).mem hmem)
  have h2 : trimChars (F ++ '(' :: (A ++ [')'])) =
      List.dropWhile isRustWhitespace F ++ '(' :: (A ++ [')']) := by
    unfold trimChars
    rw [dropWhile_append_cons (by decide)]
    have hshape2 : List.dropWhile isRustWhitespace F ++ '(' :: (A ++ [')']) =
        (List.dropWhile isRustWhitespace F ++ '(' :: A) ++ [')'] := by simp
    rw [hshape2, dropTrailing_concat (by decide)]
  unfold parseFormulaStr
  rw [h1]
  simp only [List.head?_cons, List.tail_cons]
  rw [if_pos trivial, h2]
  set F' := List.dropWhile isRustWhitespace F with hF'def
  have hfind : findOpenIdx (F' ++ '(' :: (A ++ [')'])) = some F'.length :=
    findOpenIdx_append_open hF' (A ++ [')'])
  rw [parseBody_of_found hfind]
  unfold parseWithIdx
  have hlast : (F' ++ '(' :: (A ++ [')'])).getLast? = some ')' := by
    have : F' ++ '(' :: (A ++ [')']) = (F' ++ '(' :: A) ++ [')'] := by simp
    rw [this, List.getLast?_concat]
  rw [if_pos hlast]
  have htake : (F' ++ '(' :: (A ++ [')'])).take F'.length = F' := List.take_left F' _
  have hdrop : (F' ++ '(' :: (A ++ [')'])).drop (F'.length + 1) = A ++ [')'] := by
    have : F' ++ '(' :: (A ++ [')']) = (F' ++ ['(']) ++ (A ++ [')']) := by simp
    rw [this, List.drop_left' (by simp)]
  have hlen : (F' ++ '(' :: (A ++ [')'])).length - 1 - (F'.length + 1) = A.length := by
    simp only [List.length_append, List.length_cons, List.length_nil]
    omega
  rw [htake, hdrop, hlen]
  have hargs : (A ++ [')']).take A.length = A := List.take_left A _
  rw [hargs]
  have hname : trimChars F' = trimChars F := trimChars_dropWhile F
  rw [hname]

theorem getElem_concat_len (t : List Char) (c : Char) : (t ++ [c])[t.length]? = some c := by
  induction t with
  | nil => rfl
  | cons a u ih =>
    simp only [List.cons_append, List.length_cons, List.getElem?_cons_succ]
    exact ih

theorem byteLen_take_succ {l : List Char} {i : Nat} {c : Char} (h : l[i]? = some c) :
    byteLen (l.take (i + 1)) = byteLen (l.take i) + charUtf8Size c := by
  rw [List.take_succ, h]
  simp [byteLen]

theorem byteLen_take_le (l : List Char) (m : Nat) : byteLen (l.take m) ≤ byteLen l := by
  conv_rhs => rw [← List.take_append_drop m l]
  simp only [byteLen, List.map_append, List.sum_append]
  omega

/-! ### Parser claims -/

/-- C1: for every formula string of the shape `=F(A)` where `F` contains no
opening parenthesis, `tessera_parse_formula` succeeds and yields the
function name `uppercase(trim(F))` and the argument `trim(A)` (the argument
may be empty), covering all case and surrounding-whitespace variants of
`F`. -/
theorem parse_wellformed_formula (F A : List Char) (hF : '(' ∉ F) :
    tessera_parse_formula (some (TextInput.valid ('=' :: (F ++ '(' :: (A ++ [')']))))) =
      Except.ok { functionName := toUpperChars (trimChars F), argument := trimChars A } :=
  parse_shape F A hF

theorem parse_wellformed_formula_witness :
    tessera_parse_formula (some (TextInput.valid
      ('=' :: (['s', 'u', 'm', ' '] ++ '(' :: ([' ', 'C', 'o', 'l', 'A'] ++ [')']))))) =
      Except.ok { functionName := ['S', 'U', 'M'], argument := ['C', 'o', 'l', 'A'] } :=
  (parse_wellformed_formula ['s', 'u', 'm', ' '] [' ', 'C', 'o', 'l', 'A'] (by decide)).trans
    (by rfl)

/-- C4: the parser accepts any input whose trimmed body contains a `'('`
and ends with `')'` — in particular a malformed formula with trailing junk
after a balanced argument is accepted as long as the string still ends in
`')'` (`=SUM(A)` followed by junk and a final `')'` parses, the junk
landing inside the argument) — and nested parentheses are preserved
verbatim in the argument: `=SUM((a))` yields the argument `(a)`. -/
theorem parser_trailing_junk_and_nested_parens :
    (∀ s : List Char, (trimChars s).head? = some '=' →
       '(' ∈ trimChars (trimChars s).tail →
       (trimChars (trimChars s).tail).getLast? = some ')' →
       ∃ p, tessera_parse_formula (some (TextInput.valid s)) = Except.ok p) ∧
    (∀ junk : List Char,
       tessera_parse_formula (some (TextInput.valid
         ('=' :: (['S', 'U', 'M'] ++ '(' :: ((['A', ')'] ++ junk) ++ [')']))))) =
         Except.ok { functionName := ['S', 'U', 'M'],
                     argument := trimChars (['A', ')'] ++ junk) }) ∧
    tessera_parse_formula (some (TextInput.valid
      ['=', 'S', 'U', 'M', '(', '(', 'a', ')', ')'])) =
      Except.ok { functionName := ['S', 'U', 'M'], argument := ['(', 'a', ')'] } := by
  refine ⟨?_, ?_, by rfl⟩
  · intro s h1 h2 h3
    obtain ⟨k, hk⟩ := findOpenIdx_of_mem h2
    have hred : tessera_parse_formula (some (TextInput.valid s)) =
        parseWithIdx (trimChars (trimChars s).tail) k := by
      show parseFormulaStr s = _
      unfold parseFormulaStr
      rw [if_pos h1, parseBody_of_found hk]
    rw [hred]
    unfold parseWithIdx
    rw [if_pos h3]
    exact ⟨_, rfl⟩
  · intro junk
    exact (parse_shape ['S', 'U', 'M'] (['A', ')'] ++ junk) (by decide)).trans (by rfl)

theorem parser_trailing_junk_and_nested_parens_witness :
    (∃ p, tessera_parse_formula (some (TextInput.valid
       ['=', 'S', 'U', 'M', '(', 'A', ')', 'x', ')'])) = Except.ok p) ∧
    tessera_parse_formula (some (TextInput.valid
      ['=', 'S', 'U', 'M', '(', 'A', ')', 'x', ')'])) =
      Except.ok { functionName := ['S', 'U', 'M'], argument := ['A', ')', 'x'] } :=
  ⟨parser_trailing_junk_and_nested_parens.1 _ (by decide) (by decide) (by decide), by rfl⟩

/-- C5: the parser validation short-circuits on the first failure, with
three distinct error kinds in order: no leading `'='` on the trimmed input
gives `missingLeadingEquals`; otherwise a body with no `'('` gives
`missingOpenParen`; otherwise a body not ending with `')'` gives
`missingCloseParen`. -/
theorem parser_error_kinds_short_circuit_order :
    (∀ s : List Char, ¬ (trimChars s).head? = some '=' →
       tessera_parse_formula (some (TextInput.valid s)) =
         Except.error ParseError.missingLeadingEquals) ∧
    (∀ s : List Char, (trimChars s).head? = some '=' →
       '(' ∉ trimChars (trimChars s).tail →
       tessera_parse_formula (some (TextInput.valid s)) =
         Except.error ParseError.missingOpenParen) ∧
    (∀ s : List Char, (trimChars s).head? = some '=' →
       '(' ∈ trimChars (trimChars s).tail →
       ¬ (trimChars (trimChars s).tail).getLast? = some ')' →
       tessera_parse_formula (some (TextInput.valid s)) =
         Except.error ParseError.missingCloseParen) := by
  refine ⟨?_, ?_, ?_⟩
  · intro s h
    show parseFormulaStr s = _
    unfold parseFormulaStr
    rw [if_neg h]
  · intro s h1 h2
    show parseFormulaStr s = _
    unfold parseFormulaStr
    rw [if_pos h1, parseBody_of_none (findOpenIdx_of_not_mem h2)]
  · intro s h1 h2 h3
    obtain ⟨k, hk⟩ := findOpenIdx_of_mem h2
    show parseFormulaStr s = _
    unfold parseFormulaStr
    rw [if_pos h1, parseBody_of_found hk]
    unfold parseWithIdx
    rw [if_neg h3]

theorem parser_error_kinds_short_circuit_order_witness :
    tessera_parse_formula (some (TextInput.valid
      ['S', 'U', 'M', '(', 'C', 'o', 'l', 'u', 'm', 'n', 'A', ')'])) =
        Except.error ParseError.missingLeadingEquals ∧
    tessera_parse_formula (some (TextInput.valid
      ['=', 'S', 'U', 'M', ' ', 'C', 'o', 'l', 'u', 'm', 'n', 'A', ')'])) =
        Except.error ParseError.missingOpenParen ∧
    tessera_parse_formula (some (TextInput.valid
      ['=', 'S', 'U', 'M', '(', 'C', 'o', 'l', 'u', 'm', 'n', 'A'])) =
        Except.error ParseError.missingCloseParen :=
  ⟨parser_error_kinds_short_circuit_order.1 _ (by decide),
   parser_error_kinds_short_circuit_order.2.1 _ (by decide) (by decide),
   parser_error_kinds_short_circuit_order.2.2 _ (by decide) (by decide) (by decide)⟩

/-- C9: the parser accepts an empty function name: for every input whose
body starts with `'('` and ends with `')'` — such as `=(ColumnA)` — parsing
succeeds with the empty function name and the enclosed (trimmed) text as
argument; no non-emptiness check is applied to the name. -/
theorem parser_accepts_empty_function_name :
    (∀ A : List Char,
       tessera_parse_formula (some (TextInput.valid ('=' :: ([] ++ '(' :: (A ++ [')']))))) =
         Except.ok { functionName := [], argument := trimChars A }) ∧
    tessera_parse_formula (some (TextInput.valid
      ['=', '(', 'C', 'o', 'l', 'u', 'm', 'n', 'A', ')'])) =
      Except.ok { functionName := [], argument := ['C', 'o', 'l', 'u', 'm', 'n', 'A'] } :=
  ⟨fun A => (parse_shape [] A (by decide)).trans (by rfl), by rfl⟩

/-- C10: on the success path every slice the source takes is in bounds and
on a UTF-8 character boundary: once the trimmed input starts with the
one-byte `'='` and the body ends with the one-byte `')'`, the first `'('`
lies strictly before the final character (`funcEnd + 1 ≤ length - 1`), the
byte positions after the `'('` and before the final `')'` are boundary
positions one byte away from the respective character boundaries, the
argument slice is non-reversed, and the parser returns a result. -/
theorem parser_slicing_in_bounds_and_on_boundaries (s body : List Char) (funcEnd : Nat)
    (hhead : (trimChars s).head? = some '=')
    (hbody : trimChars (trimChars s).tail = body)
    (hfind : findOpenIdx body = some funcEnd)
    (hlast : body.getLast? = some ')') :
    funcEnd + 1 ≤ body.length - 1 ∧
    byteLen (body.take (funcEnd + 1)) = byteLen (body.take funcEnd) + 1 ∧
    byteLen body = byteLen (body.take (body.length - 1)) + 1 ∧
    byteLen (body.take (funcEnd + 1)) ≤ byteLen (body.take (body.length - 1)) ∧
    ∃ p, tessera_parse_formula (some (TextInput.valid s)) = Except.ok p := by
  obtain ⟨t, ht⟩ := getLast?_shape hlast
  have hlt : funcEnd < body.length := findOpenIdx_some_lt hfind
  have hget : body[funcEnd]? = some '(' := findOpenIdx_some_get hfind
  have hlen1 : body.length = t.length + 1 := by rw [ht]; simp
  have hgetlast : body[body.length - 1]? = some ')' := by
    subst ht
    have hidx : (t ++ [')']).length - 1 = t.length := by simp
    rw [hidx]
    exact getElem_concat_len t ')'
  have hne : funcEnd ≠ body.length - 1 := by
    intro he
    rw [he, hgetlast] at hget
    exact absurd (Option.some.inj hget) (by decide)
  have hb1 : funcEnd + 1 ≤ body.length - 1 := by omega
  have hsz : charUtf8Size '(' = 1 := by decide
  have hsz2 : charUtf8Size ')' = 1 := by decide
  refine ⟨hb1, ?_, ?_, ?_, ?_⟩
  · rw [byteLen_take_succ hget, hsz]
  · have h3 := byteLen_take_succ hgetlast
    have hlen2 : body.length - 1 + 1 = body.length := by omega
    rw [hlen2, List.take_length, hsz2] at h3
    exact h3
  · have heq : body.take (funcEnd + 1) = (body.take (body.length - 1)).take (funcEnd + 1) := by
      rw [List.take_take]
      congr 1
      omega
    rw [heq]
    exact byteLen_take_le _ _
  · have hred : tessera_parse_formula (some (TextInput.valid s)) =
        parseWithIdx body funcEnd := by
      show parseFormulaStr s = _
      unfold parseFormulaStr
      rw [if_pos hhead, hbody, parseBody_of_found hfind]
    rw [hred]
    unfold parseWithIdx
    rw [if_pos hlast]
    exact ⟨_, rfl⟩

theorem parser_slicing_in_bounds_and_on_boundaries_witness :
    3 + 1 ≤ (['S', 'U', 'M', '(', 'A', ')'] : List Char).length - 1 ∧
    byteLen (['S', 'U', 'M', '(', 'A', ')'].take (3 + 1)) =
      byteLen (['S', 'U', 'M', '(', 'A', ')'].take 3) + 1 ∧
    byteLen ['S', 'U', 'M', '(', 'A', ')'] =
      byteLen (['S', 'U', 'M', '(', 'A', ')'].take
        ((['S', 'U', 'M', '(', 'A', ')'] : List Char).length - 1)) + 1 ∧
    byteLen (['S', 'U', 'M', '(', 'A', ')'].take (3 + 1)) ≤
      byteLen (['S', 'U', 'M', '(', 'A', ')'].take
        ((['S', 'U', 'M', '(', 'A', ')'] : List Char).length - 1)) ∧
    ∃ p, tessera_parse_formula (some (TextInput.valid
      ['=', 'S', 'U', 'M', '(', 'A', ')'])) = Except.ok p :=
  parser_slicing_in_bounds_and_on_boundaries
    ['=', 'S', 'U', 'M', '(', 'A', ')'] ['S', 'U', 'M', '(', 'A', ')'] 3
    (by decide) (by decide) (by decide) (by decide)

/-! ### Helper lemmas about the aggregation loops -/

theorem tessera_sum_valid {F : Type} (M : FloatModel F) (c : List Char) (vals : List CellInput) :
    tessera_sum M (some (TextInput.valid c)) (some vals) =
      if (List.foldl (sumStep M) (M.zero, 0) vals).2 = 0 then
        Except.error AggError.noNumericValues
      else Except.ok (List.foldl (sumStep M) (M.zero, 0) vals).1 := rfl

theorem tessera_avg_valid {F : Type} (M : FloatModel F) (c : List Char) (vals : List CellInput) :
    tessera_avg M (some (TextInput.valid c)) (some vals) =
      if (List.foldl (sumStep M) (M.zero, 0) vals).2 = 0 then
        Except.error AggError.noNumericValues
      else
        Except.ok (M.div (List.foldl (sumStep M) (M.zero, 0) vals).1
          (M.ofNat (List.foldl (sumStep M) (M.zero, 0) vals).2)) := rfl

theorem tessera_min_valid {F : Type} (M : FloatModel F) (c : List Char) (vals : List CellInput) :
    tessera_min M (some (TextInput.valid c)) (some vals) =
      match List.foldl (minStep M) none vals with
      | some m => Except.ok m
      | none => Except.error AggError.noNumericValues := rfl

theorem tessera_max_valid {F : Type} (M : FloatModel F) (c : List Char) (vals : List CellInput) :
    tessera_max M (some (TextInput.valid c)) (some vals) =
      match List.foldl (maxStep M) none vals with
      | some m => Except.ok m
      | none => Except.error AggError.noNumericValues := rfl

theorem tessera_count_valid {F : Type} (M : FloatModel F) (c : List Char) (vals : List CellInput) :
    tessera_count M (some (TextInput.valid c)) (some vals) =
      Except.ok (M.ofNat (List.foldl countStep 0 vals)) := rfl

theorem sumStep_skip {F : Type} (M : FloatModel F) :
    ∀ (b : F × Nat) (e : CellInput), coerceEntry M.parse e = none → sumStep M b e = b :=
  fun b e h => by simp [sumStep, h]

theorem minStep_skip {F : Type} (M : FloatModel F) :
    ∀ (b : Option F) (e : CellInput), coerceEntry M.parse e = none → minStep M b e = b :=
  fun b e h => by simp [minStep, h]

theorem maxStep_skip {F : Type} (M : FloatModel F) :
    ∀ (b : Option F) (e : CellInput), coerceEntry M.parse e = none → maxStep M b e = b :=
  fun b e h => by simp [maxStep, h]

theorem foldl_skip_all {F : Type} {β : Type} (M : FloatModel F) (f : β → CellInput → β)
    (hf : ∀ b e, coerceEntry M.parse e = none → f b e = b)
    (vals : List CellInput) (b : β) (h : ∀ e ∈ vals, coerceEntry M.parse e = none) :
    List.foldl f b vals = b := by
  induction vals generalizing b with
  | nil => rfl
  | cons v t ih =>
    rw [List.foldl_cons, hf b v (h v (by simp))]
    exact ih b (fun e he => h e (by simp [he]))

theorem foldl_skip_middle {F : Type} {β : Type} (M : FloatModel F) (f : β → CellInput → β)
    (hf : ∀ b e, coerceEntry M.parse e = none → f b e = b)
    (l1 l2 : List CellInput) (e : CellInput) (he : coerceEntry M.parse e = none) (b : β) :
    List.foldl f b (l1 ++ e :: l2) = List.foldl f b (l1 ++ l2) := by
  rw [List.foldl_append, List.foldl_append, List.foldl_cons, hf _ _ he]

theorem sumFold_eq {F : Type} (M : FloatModel F) (vals : List CellInput) (a : F) (n : Nat) :
    List.foldl (sumStep M) (a, n) vals =
      (List.foldl M.add a (parsedValues M vals), n + (parsedValues M vals).length) := by
  induction vals generalizing a n with
  | nil => simp [parsedValues]
  | cons v t ih =>
    rw [List.foldl_cons]
    cases hv : coerceEntry M.parse v with
    | none =>
      rw [show sumStep M (a, n) v = (a, n) from by simp [sumStep, hv], ih]
      have hp : parsedValues M (v :: t) = parsedValues M t := by
        simp [parsedValues, List.filterMap_cons, hv]
      rw [hp]
    | some x =>
      rw [show sumStep M (a, n) v = (M.add a x, n + 1) from by simp [sumStep, hv], ih]
      have hp : parsedValues M (v :: t) = x :: parsedValues M t := by
        simp [parsedValues, List.filterMap_cons, hv]
      rw [hp, List.foldl_cons, List.length_cons]
      have harith : n + 1 + (parsedValues M t).length = n + ((parsedValues M t).length + 1) := by
        omega
      rw [harith]

theorem countStep_eq (acc : Nat) (e : CellInput) :
    countStep acc e = if isContentful e then acc + 1 else acc := by
  cases e with
  | none => rfl
  | some t =>
    cases t with
    | invalid => rfl
    | valid s =>
      by_cases h : (trimChars s).isEmpty
      · simp [countStep, isContentful, h]
      · simp [countStep, isContentful, h]

theorem countFold_eq (vals : List CellInput) (n : Nat) :
    List.foldl countStep n vals = n + vals.countP isContentful := by
  induction vals generalizing n with
  | nil => simp
  | cons v t ih =>
    rw [List.foldl_cons, countStep_eq, List.countP_cons]
    by_cases h : isContentful v
    · rw [if_pos h, ih, if_pos h]
      omega
    · rw [if_neg h, ih, if_neg h]
      omega

theorem FValModel_parse : FValModel.parse = parseF64Val := rfl

theorem coerceEntry_valid {F : Type} (parse : List Char → Option F) (s : List Char) :
    coerceEntry parse (some (TextInput.valid s)) =
      if (trimChars s).isEmpty then none else parse (trimChars s) := rfl

theorem parseF64Val_isSome (s : List Char) :
    (parseF64Val s).isSome = (specDecimalAccepts s || isSpecialFloat s) := by
  unfold parseF64Val specDecimalAccepts isSpecialFloat
  by_cases h1 : (toLowerChars (stripSign s) == infChars ||
      toLowerChars (stripSign s) == infinityChars) = true
  · rw [if_pos h1]
    simp [h1]
  · rw [if_neg h1]
    by_cases h2 : (toLowerChars (stripSign s) == nanChars) = true
    · rw [if_pos h2]
      simp [h2]
    · rw [if_neg h2]
      have h1' : ¬ toLowerChars (stripSign s) = infChars ∧
          ¬ toLowerChars (stripSign s) = infinityChars := by
        simpa using h1
      have h2' : ¬ toLowerChars (stripSign s) = nanChars := by simpa using h2
      cases hp : parseNumberVal (stripSign s) <;> simp [hp, h1'.1, h1'.2, h2']

/-! ### Aggregation claims -/

/-- C2 counterexample: the entry `inf` does not match the decimal grammar
of the claim (optional sign, integer and/or fractional part, optional
exponent), yet the code coerces it to a number and SUM over `["inf"]`
succeeds instead of skipping the entry and failing. -/
theorem coerce_accepts_inf_beyond_decimal_grammar :
    specDecimalAccepts (trimChars ['i', 'n', 'f']) = false ∧
    (coerceEntry FValModel.parse (some (TextInput.valid ['i', 'n', 'f']))).isSome = true ∧
    tessera_sum FValModel (some (TextInput.valid ['c']))
      (some [some (TextInput.valid ['i', 'n', 'f'])]) = Except.ok FVal.posInf :=
  ⟨by decide, by decide, by rfl⟩

/-- C2 (amended): a present entry is coerced to a number exactly when its
trimmed text matches the documented grammar of `str::parse::<f64>` — the
decimal grammar (optional sign, integer and/or fractional part, optional
exponent) *or* one of the case-insensitive special spellings `inf`,
`infinity`, `nan` with optional sign; every entry that is absent, invalidly
encoded, blank after trimming, or fails this parse is silently skipped by
SUM/AVG/MIN/MAX and never aborts the computation. -/
theorem coercion_acceptance_grammar_and_silent_skip :
    (∀ e : CellInput,
       (coerceEntry FValModel.parse e).isSome = true ↔
         ∃ s, e = some (TextInput.valid s) ∧
           (specDecimalAccepts (trimChars s) || isSpecialFloat (trimChars s)) = true) ∧
    (∀ (c : List Char) (e : CellInput) (l1 l2 : List CellInput),
       coerceEntry FValModel.parse e = none →
         tessera_sum FValModel (some (TextInput.valid c)) (some (l1 ++ e :: l2)) =
           tessera_sum FValModel (some (TextInput.valid c)) (some (l1 ++ l2)) ∧
         tessera_avg FValModel (some (TextInput.valid c)) (some (l1 ++ e :: l2)) =
           tessera_avg FValModel (some (TextInput.valid c)) (some (l1 ++ l2)) ∧
         tessera_min FValModel (some (TextInput.valid c)) (some (l1 ++ e :: l2)) =
           tessera_min FValModel (some (TextInput.valid c)) (some (l1 ++ l2)) ∧
         tessera_max FValModel (some (TextInput.valid c)) (some (l1 ++ e :: l2)) =
           tessera_max FValModel (some (TextInput.valid c)) (some (l1 ++ l2))) := by
  constructor
  · intro e
    cases e with
    | none => simp [coerceEntry]
    | some t =>
      cases t with
      | invalid => simp [coerceEntry]
      | valid s =>
        rw [coerceEntry_valid]
        by_cases h : (trimChars s).isEmpty
        · rw [if_pos h]
          constructor
          · intro hc
            exact absurd hc (by simp)
          · rintro ⟨s', hs', hb⟩
            have hss : s = s' := TextInput.valid.inj (Option.some.inj hs')
            subst hss
            have htrim : trimChars s = [] := by
              cases he : trimChars s with
              | nil => rfl
              | cons a u => rw [he] at h; simp at h
            rw [htrim] at hb
            exact absurd hb (by decide)
        · rw [if_neg h, FValModel_parse]
          constructor
          · intro hsome
            refine ⟨s, rfl, ?_⟩
            rw [← parseF64Val_isSome]
            exact hsome
          · rintro ⟨s', hs', hb⟩
            have hss : s = s' := TextInput.valid.inj (Option.some.inj hs')
            subst hss
            rw [parseF64Val_isSome]
            exact hb
  · intro c e l1 l2 he
    have hs := foldl_skip_middle FValModel (sumStep FValModel) (sumStep_skip FValModel)
      l1 l2 e he (FValModel.zero, 0)
    have hm := foldl_skip_middle FValModel (minStep FValModel) (minStep_skip FValModel)
      l1 l2 e he (none : Option FVal)
    have hx := foldl_skip_middle FValModel (maxStep FValModel) (maxStep_skip FValModel)
      l1 l2 e he (none : Option FVal)
    refine ⟨?_, ?_, ?_, ?_⟩
    · rw [tessera_sum_valid, tessera_sum_valid, hs]
    · rw [tessera_avg_valid, tessera_avg_valid, hs]
    · rw [tessera_min_valid, tessera_min_valid, hm]
    · rw [tessera_max_valid, tessera_max_valid, hx]

theorem coercion_acceptance_grammar_and_silent_skip_witness :
    tessera_sum FValModel (some (TextInput.valid ['c']))
      (some ([some (TextInput.valid ['1'])] ++ some (TextInput.valid ['x', 'y']) :: [])) =
      tessera_sum FValModel (some (TextInput.valid ['c']))
        (some ([some (TextInput.valid ['1'])] ++ [])) :=
  (coercion_acceptance_grammar_and_silent_skip.2 ['c'] (some (TextInput.valid ['x', 'y']))
    [some (TextInput.valid ['1'])] [] (by decide)).1

/-- C3 counterexample: on `["", "abc", null]` COUNT returns 1 — `"abc"` is
non-null and non-blank — not the 0 the claim asserts. -/
theorem count_mixed_example_returns_one :
    tessera_count FValModel (some (TextInput.valid ['T']))
      (some [some (TextInput.valid []), some (TextInput.valid ['a', 'b', 'c']), none]) =
      Except.ok (FValModel.ofNat 1) ∧
    FValModel.ofNat 1 ≠ FValModel.ofNat 0 :=
  ⟨by rfl, by decide⟩

/-- C3 (amended): for every input sequence in which no entry coerces to a
number, SUM, AVG, MIN and MAX each fail with the no-numeric-values error,
while COUNT never fails and returns the count of non-null, non-blank
entries — which is 1 for `["", "abc", null]`, because `"abc"` has content;
in particular SUM over that sequence fails while COUNT succeeds with 1. -/
theorem numeric_reducers_fail_count_succeeds {F : Type} (M : FloatModel F) (c : List Char) :
    (∀ vals : List CellInput, (∀ e ∈ vals, coerceEntry M.parse e = none) →
       tessera_sum M (some (TextInput.valid c)) (some vals) =
         Except.error AggError.noNumericValues ∧
       tessera_avg M (some (TextInput.valid c)) (some vals) =
         Except.error AggError.noNumericValues ∧
       tessera_min M (some (TextInput.valid c)) (some vals) =
         Except.error AggError.noNumericValues ∧
       tessera_max M (some (TextInput.valid c)) (some vals) =
         Except.error AggError.noNumericValues) ∧
    (∀ vals : List CellInput,
       tessera_count M (some (TextInput.valid c)) (some vals) =
         Except.ok (M.ofNat (vals.countP isContentful))) := by
  constructor
  · intro vals h
    refine ⟨?_, ?_, ?_, ?_⟩
    · rw [tessera_sum_valid, foldl_skip_all M (sumStep M) (sumStep_skip M) vals (M.zero, 0) h]
      rw [if_pos rfl]
    · rw [tessera_avg_valid, foldl_skip_all M (sumStep M) (sumStep_skip M) vals (M.zero, 0) h]
      rw [if_pos rfl]
    · rw [tessera_min_valid, foldl_skip_all M (minStep M) (minStep_skip M) vals none h]
    · rw [tessera_max_valid, foldl_skip_all M (maxStep M) (maxStep_skip M) vals none h]
  · intro vals
    rw [tessera_count_valid, countFold_eq, Nat.zero_add]

theorem numeric_reducers_fail_count_succeeds_witness :
    tessera_sum FValModel (some (TextInput.valid ['T']))
      (some [some (TextInput.valid []), some (TextInput.valid ['a', 'b', 'c']), none]) =
      Except.error AggError.noNumericValues ∧
    tessera_count FValModel (some (TextInput.valid ['T']))
      (some [some (TextInput.valid []), some (TextInput.valid ['a', 'b', 'c']), none]) =
      Except.ok (FValModel.ofNat 1) :=
  ⟨((numeric_reducers_fail_count_succeeds FValModel ['T']).1 _ (by decide)).1,
   ((numeric_reducers_fail_count_succeeds FValModel ['T']).2 _).trans
     (congrArg (fun n => Except.ok (FValModel.ofNat n)) (by decide))⟩

/-- C6: for every input sequence with at least one parseable entry, AVG
returns the left-to-right sum of the successfully parsed values divided by
the count of parsed values only — absent, blank and unparseable entries
contribute to neither the numerator nor the denominator. -/
theorem avg_divides_by_parsed_count {F : Type} (M : FloatModel F) (c : List Char)
    (vals : List CellInput) (h : parsedValues M vals ≠ []) :
    tessera_avg M (some (TextInput.valid c)) (some vals) =
      Except.ok (M.div (List.foldl M.add M.zero (parsedValues M vals))
        (M.ofNat (parsedValues M vals).length)) := by
  have hlen : (parsedValues M vals).length ≠ 0 := fun h0 => h (List.length_eq_zero.mp h0)
  rw [tessera_avg_valid, sumFold_eq]
  rw [if_neg (by simpa using hlen)]
  simp

theorem avg_divides_by_parsed_count_witness :
    tessera_avg FValModel (some (TextInput.valid ['T']))
      (some [some (TextInput.valid ['1', '0']), some (TextInput.valid ['2', '0']),
             some (TextInput.valid ['3', '0'])]) =
      Except.ok (FValModel.ofNat 20) :=
  (avg_divides_by_parsed_count FValModel ['T'] _ (by decide)).trans
    (congrArg Except.ok (by decide))

/-- C7: for every input sequence with at least one parseable entry, SUM is
exactly the naive left-to-right fold of the parsed values in input order,
starting from zero — with no reordering or compensated summation — for any
interpretation of the floating-point addition, in particular IEEE-754
(hence bit-exact). -/
theorem sum_is_naive_left_fold {F : Type} (M : FloatModel F) (c : List Char)
    (vals : List CellInput) (h : parsedValues M vals ≠ []) :
    tessera_sum M (some (TextInput.valid c)) (some vals) =
      Except.ok (List.foldl M.add M.zero (parsedValues M vals)) := by
  have hlen : (parsedValues M vals).length ≠ 0 := fun h0 => h (List.length_eq_zero.mp h0)
  rw [tessera_sum_valid, sumFold_eq]
  rw [if_neg (by simpa using hlen)]

theorem sum_is_naive_left_fold_witness :
    tessera_sum FValModel (some (TextInput.valid ['T']))
      (some [some (TextInput.valid ['1', '0']), some (TextInput.valid ['2', '0']),
             some (TextInput.valid ['3', '0'])]) =
      Except.ok (FValModel.ofNat 60) :=
  (sum_is_naive_left_fold FValModel ['T'] _ (by decide)).trans
    (congrArg Except.ok (by decide))

/-- C8: for every aggregate call, a null column-name or null values pointer
yields the null-pointer error, an invalid text encoding of the column name
is terminal for the whole call, but an invalid text encoding of an
individual value entry is skipped like a blank entry and is never terminal
for the call. -/
theorem null_and_encoding_error_policy {F : Type} (M : FloatModel F) :
    (∀ (cn : Option TextInput) (vs : Option (List CellInput)), cn = none ∨ vs = none →
       tessera_sum M cn vs = Except.error AggError.nullPointer ∧
       tessera_avg M cn vs = Except.error AggError.nullPointer ∧
       tessera_min M cn vs = Except.error AggError.nullPointer ∧
       tessera_max M cn vs = Except.error AggError.nullPointer ∧
       tessera_count M cn vs = Except.error AggError.nullPointer) ∧
    (∀ vals : List CellInput,
       tessera_sum M (some TextInput.invalid) (some vals) =
         Except.error AggError.invalidColumnName ∧
       tessera_avg M (some TextInput.invalid) (some vals) =
         Except.error AggError.invalidColumnName ∧
       tessera_min M (some TextInput.invalid) (some vals) =
         Except.error AggError.invalidColumnName ∧
       tessera_max M (some TextInput.invalid) (some vals) =
         Except.error AggError.invalidColumnName ∧
       tessera_count M (some TextInput.invalid) (some vals) =
         Except.error AggError.invalidColumnName) ∧
    (∀ (c : List Char) (l1 l2 : List CellInput),
       tessera_sum M (some (TextInput.valid c)) (some (l1 ++ some TextInput.invalid :: l2)) =
         tessera_sum M (some (TextInput.valid c)) (some (l1 ++ l2)) ∧
       tessera_avg M (some (TextInput.valid c)) (some (l1 ++ some TextInput.invalid :: l2)) =
         tessera_avg M (some (TextInput.valid c)) (some (l1 ++ l2)) ∧
       tessera_min M (some (TextInput.valid c)) (some (l1 ++ some TextInput.invalid :: l2)) =
         tessera_min M (some (TextInput.valid c)) (some (l1 ++ l2)) ∧
       tessera_max M (some (TextInput.valid c)) (some (l1 ++ some TextInput.invalid :: l2)) =
         tessera_max M (some (TextInput.valid c)) (some (l1 ++ l2)) ∧
       tessera_count M (some (TextInput.valid c)) (some (l1 ++ some TextInput.invalid :: l2)) =
         tessera_count M (some (TextInput.valid c)) (some (l1 ++ l2))) := by
  refine ⟨?_, ?_, ?_⟩
  · intro cn vs h
    rcases h with h | h
    · subst h
      cases vs with
      | none => exact ⟨rfl, rfl, rfl, rfl, rfl⟩
      | some l => exact ⟨rfl, rfl, rfl, rfl, rfl⟩
    · subst h
      cases cn with
      | none => exact ⟨rfl, rfl, rfl, rfl, rfl⟩
      | some t =>
        cases t with
        | invalid => exact ⟨rfl, rfl, rfl, rfl, rfl⟩
        | valid s => exact ⟨rfl, rfl, rfl, rfl, rfl⟩
  · intro vals
    exact ⟨rfl, rfl, rfl, rfl, rfl⟩
  · intro c l1 l2
    have he : coerceEntry M.parse (some TextInput.invalid) = none := rfl
    have hs := foldl_skip_middle M (sumStep M) (sumStep_skip M) l1 l2 _ he (M.zero, 0)
    have hm := foldl_skip_middle M (minStep M) (minStep_skip M) l1 l2 _ he (none : Option F)
    have hx := foldl_skip_middle M (maxStep M) (maxStep_skip M) l1 l2 _ he (none : Option F)
    have hc : List.foldl countStep 0 (l1 ++ some TextInput.invalid :: l2) =
        List.foldl countStep 0 (l1 ++ l2) := by
      rw [List.foldl_append, List.foldl_append, List.foldl_cons]
      rfl
    refine ⟨?_, ?_, ?_, ?_, ?_⟩
    · rw [tessera_sum_valid, tessera_sum_valid, hs]
    · rw [tessera_avg_valid, tessera_avg_valid, hs]
    · rw [tessera_min_valid, tessera_min_valid, hm]
    · rw [tessera_max_valid, tessera_max_valid, hx]
    · rw [tessera_count_valid, tessera_count_valid, hc]

theorem null_and_encoding_error_policy_witness :
    tessera_sum FValModel none (some []) = Except.error AggError.nullPointer ∧
    tessera_avg FValModel (some TextInput.invalid) (some []) =
      Except.error AggError.invalidColumnName ∧
    tessera_count FValModel (some (TextInput.valid ['c']))
      (some ([some (TextInput.valid ['1'])] ++ some TextInput.invalid :: [])) =
      tessera_count FValModel (some (TextInput.valid ['c']))
        (some ([some (TextInput.valid ['1'])] ++ [])) :=
  ⟨((null_and_encoding_error_policy FValModel).1 none (some []) (Or.inl rfl)).1,
   ((null_and_encoding_error_policy FValModel).2.1 []).2.1,
   ((null_and_encoding_error_policy FValModel).2.2 ['c'] [some (TextInput.valid ['1'])]
     []).2.2.2.2⟩

end Tessera
